import Mathlib

/-!
Shallow embedding of src/gost3410/curve.go (package gost3410) of the gogost
repository: curve descriptor construction, affine point addition,
double-and-add scalar multiplication, and descriptor equality, together
with theorems checking the specification claims.

Go big.Int values are modelled as Int. Go Mod (Euclidean remainder, result
in [0, |m|) for a nonzero modulus) is Int emod, written %. Go Rsh on a
possibly negative value is an arithmetic shift, i.e. floor division, which
for the divisor 2 agrees with Int ediv, written /. Nil big.Int pointers are
modelled as none. The one Go loop that can run forever is given fuel; a
result of none means the fuel ran out, so nontermination of the source loop
is rendered as: for every fuel the result is none.
-/

namespace GoGost

/-- Curve descriptor, mirroring the struct Curve of the source. The fields
edS and edT (cached Edwards conversion parameters, never assigned nor read
in the source file) are omitted. -/
structure Curve where
  Name : String
  P : Int
  Q : Int
  Co : Int
  A : Int
  B : Int
  E : Option Int
  D : Option Int
  X : Int
  Y : Int
deriving DecidableEq

/-- Decidable equality for Except, so that concrete runs of Exp can be
checked by decide. -/
instance {ε α : Type} [DecidableEq ε] [DecidableEq α] : DecidableEq (Except ε α) := fun a b =>
  match a, b with
  | .error e, .error f =>
    if h : e = f then isTrue (by rw [h]) else isFalse (fun he => by cases he; exact h rfl)
  | .ok x, .ok y =>
    if h : x = y then isTrue (by rw [h]) else isFalse (fun he => by cases he; exact h rfl)
  | .error _, .ok _ => isFalse (fun h => by cases h)
  | .ok _, .error _ => isFalse (fun h => by cases h)

/-- The pos method of Curve, with the modulus passed explicitly: fold a
negative value back into range by adding P once. -/
def posP (P v : Int) : Int := if v < 0 then v + P else v

/-- Models the math/big ModInverse call used by the source: some u, with u
the multiplicative inverse of g modulo n lying in [0, n), when such an
inverse exists; none otherwise (Go then leaves the receiver unchanged and
returns nil, which the call sites below render with getD). The inverse in
[0, n) is unique when it exists, so the first hit of the search is it. -/
def modInverse (g n : Int) : Option Int :=
  ((List.range n.toNat).find? (fun u : Nat => (g * (u : Int)) % n = 1 % n)).map
    (fun u : Nat => (u : Int))

/-- NewCurve of the source: build the descriptor, check that the base point
satisfies the curve equation modulo P, store the Edwards coefficients only
when both are supplied, and default the cofactor to 1. -/
def NewCurve (p q a b x y : Int) (e d co : Option Int) : Except String Curve :=
  let r1 := (y * y) % p
  let r2 := ((x * x + a) * x + b) % p
  let r2 := posP p r2
  if r1 ≠ r2 then Except.error "gogost/gost3410: invalid curve parameters"
  else
    Except.ok
      { Name := "unknown", P := p, Q := q, A := a, B := b, X := x, Y := y
        E := if e.isSome ∧ d.isSome then e else none
        D := if e.isSome ∧ d.isSome then d else none
        Co := co.getD 1 }

/-- The add method of the source, transcribed statement by statement. The
two in-place writes at the end (into the first point) are rendered by
returning the new first point; see addGo below for the state-passing view.
In the doubling branch the ModInverse receiver is tx itself, so a failed
inverse leaves 2 * p1y there; in the general branch the receiver is the
zero-initialized t, so a failed inverse leaves 0. -/
def Curve.add (c : Curve) (p1x p1y p2x p2y : Int) : Int × Int :=
  let t : Int :=
    if p1x = p2x ∧ p1y = p2y then
      -- double
      let t := p1x * p1x
      let t := t * 3
      let t := t + c.A
      let tx := 2 * p1y
      let tx := (modInverse tx c.P).getD tx
      let t := t * tx
      t % c.P
    else
      let tx := p2x - p1x
      let tx := tx % c.P
      let tx := posP c.P tx
      let ty := p2y - p1y
      let ty := ty % c.P
      let ty := posP c.P ty
      let t := (modInverse tx c.P).getD 0
      let t := t * ty
      t % c.P
  let tx := t * t
  let tx := tx - p1x
  let tx := tx - p2x
  let tx := tx % c.P
  let tx := posP c.P tx
  let ty := p1x - tx
  let ty := ty * t
  let ty := ty - p1y
  let ty := ty % c.P
  let ty := posP c.P ty
  (tx, ty)

/-- The loop of Exp: while dg is nonzero, conditionally add C into T when
the low bit of dg is set, shift dg right by one (arithmetic shift, floor
division by 2), and double C. Fuel counts loop iterations. -/
def expLoop (c : Curve) : Nat → Int → Int → Int → Int → Int → Option (Int × Int)
  | 0, dg, tx, ty, _, _ => if dg = 0 then some (tx, ty) else none
  | fuel + 1, dg, tx, ty, cx, cy =>
    if dg = 0 then some (tx, ty)
    else
      let r1 := if dg % 2 = 1 then c.add tx ty cx cy else (tx, ty)
      let dg := dg / 2
      let r2 := c.add cx cy cx cy
      expLoop c fuel dg r1.1 r1.2 r2.1 r2.2

/-- Exp of the source: reject a zero degree, otherwise run double-and-add
on dg = degree - 1 starting from fresh copies of the base point. -/
def Curve.Exp (c : Curve) (degree xS yS : Int) (fuel : Nat) :
    Option (Except String (Int × Int)) :=
  if degree = 0 then some (Except.error "gogost/gost3410: zero degree value")
  else
    let dg := degree - 1
    let tx := xS
    let ty := yS
    let cx := xS
    let cy := yS
    (expLoop c fuel dg tx ty cx cy).map Except.ok

/-- Models a Go big.Int Cmp-for-equality on possibly nil pointers: a nil
pointer on either side (but not both, which Go short-circuits to equal
pointers) dereferences nil and panics, rendered as none. -/
def cmpEqNil (x y : Option Int) : Option Bool :=
  match x, y with
  | some a, some b => some (decide (a = b))
  | none, none => some true
  | _, _ => none

/-- Short-circuiting Go conjunction over possibly panicking operands. -/
def andSC (a : Option Bool) (b : Unit → Option Bool) : Option Bool :=
  match a with
  | some true => b ()
  | other => other

/-- Equal of the source. The chain of Go conjunctions short-circuits: the
Edwards clauses are only evaluated once the six scalar comparisons have all
succeeded, and the D clause only once the E clause returned true. The E
clause guards only the case where both sides are nil before calling Cmp, so
a descriptor pair with exactly one Edwards side present dereferences nil. -/
def Curve.Equal (our their : Curve) : Option Bool :=
  if our.P = their.P ∧ our.Q = their.Q ∧ our.A = their.A ∧ our.B = their.B ∧
      our.X = their.X ∧ our.Y = their.Y then
    andSC (if our.E = none ∧ their.E = none then some true else cmpEqNil our.E their.E)
      (fun _ =>
        andSC (if our.D = none ∧ their.D = none then some true else cmpEqNil our.D their.D)
          (fun _ => some (decide (our.Co = their.Co))))
  else some false

/-- State of the four big.Int cells pointed to by the arguments of add,
assuming the two points are distinct objects as the contract states. -/
structure AddState where
  p1x : Int
  p1y : Int
  p2x : Int
  p2y : Int
deriving DecidableEq

/-- The add method of the source viewed as a state transformer on the four
argument cells: the body reads all four cells into the local temporaries t,
tx, ty (the let chain of Curve.add) and its only writes to the cells are
the two final Set calls into the first point. -/
def addGo (c : Curve) (s : AddState) : AddState :=
  let r := c.add s.p1x s.p1y s.p2x s.p2y
  { s with p1x := r.1, p1y := r.2 }

/-- The argument cells of Exp. -/
structure ExpArgs where
  degree : Int
  xS : Int
  yS : Int
deriving DecidableEq

/-- Exp of the source viewed on its argument cells: the body copies degree,
xS and yS into the freshly allocated dg, tx, ty, cx, cy (big.NewInt followed
by Sub or Set) and mutates only those copies, so the argument cells are
returned unchanged next to the result. -/
def expGo (c : Curve) (s : ExpArgs) (fuel : Nat) :
    ExpArgs × Option (Except String (Int × Int)) :=
  (s, c.Exp s.degree s.xS s.yS fuel)

/-- Toy curve of section 8 of the spec: P = 23, A = 1, B = 1, with the base
point (3, 10) on it. -/
def toyCurve : Curve :=
  { Name := "unknown", P := 23, Q := 28, Co := 1, A := 1, B := 1,
    E := none, D := none, X := 3, Y := 10 }

/-- Toy curve carrying Edwards coefficients, used against toyCurve to probe
the mixed-presence branch of Equal. -/
def toyCurveEd : Curve :=
  { Name := "unknown", P := 23, Q := 28, Co := 1, A := 1, B := 1,
    E := some 1, D := some 1, X := 3, Y := 10 }

/-- Termination of Exp in the fuel model: some fuel suffices. -/
def ExpTerminates (c : Curve) (degree x y : Int) : Prop :=
  ∃ fuel r, c.Exp degree x y fuel = some r

section BasicLemmas

/-- Slope of the general-addition branch of add, as a standalone view. -/
def lamGen (c : Curve) (p1x p1y p2x p2y : Int) : Int :=
  ((modInverse (posP c.P ((p2x - p1x) % c.P)) c.P).getD 0 *
    posP c.P ((p2y - p1y) % c.P)) % c.P

/-- Slope of the doubling branch of add, as a standalone view. -/
def lamDbl (c : Curve) (p1x p1y : Int) : Int :=
  ((p1x * p1x * 3 + c.A) * (modInverse (2 * p1y) c.P).getD (2 * p1y)) % c.P

/-- Final coordinates written by add, given the branch slope t. -/
def addRes (c : Curve) (t p1x p2x p1y : Int) : Int × Int :=
  (posP c.P ((t * t - p1x - p2x) % c.P),
   posP c.P (((p1x - posP c.P ((t * t - p1x - p2x) % c.P)) * t - p1y) % c.P))

/-- View of add on coordinate-wise distinct inputs: general branch. -/
lemma add_eq_general (c : Curve) (p1x p1y p2x p2y : Int)
    (h : ¬(p1x = p2x ∧ p1y = p2y)) :
    c.add p1x p1y p2x p2y = addRes c (lamGen c p1x p1y p2x p2y) p1x p2x p1y := by
  unfold Curve.add
  rw [if_neg h]
  rfl

/-- View of add on coordinate-wise identical inputs: doubling branch. -/
lemma add_eq_double (c : Curve) (p1x p1y p2x p2y : Int)
    (h : p1x = p2x ∧ p1y = p2y) :
    c.add p1x p1y p2x p2y = addRes c (lamDbl c p1x p1y) p1x p2x p1y := by
  unfold Curve.add
  rw [if_pos h]
  rfl

/-- A value already reduced by emod needs no pos correction. -/
lemma posP_emod (P v : Int) : posP P (v % P) = v % P := by
  unfold posP
  rcases eq_or_ne P 0 with h | h
  · subst h
    simp [Int.emod_zero]
  · rw [if_neg (not_lt.mpr (Int.emod_nonneg v h))]

lemma emod_nonneg_of_pos {P : Int} (v : Int) (hP : 0 < P) : 0 ≤ v % P :=
  Int.emod_nonneg v (ne_of_gt hP)

lemma emod_lt_of_pos' {P : Int} (v : Int) (hP : 0 < P) : v % P < P :=
  Int.emod_lt_of_pos v hP

/-- Both output coordinates of add are emod-reduced values. -/
lemma add_coords (c : Curve) (p1x p1y p2x p2y : Int) :
    ∃ t : Int, c.add p1x p1y p2x p2y = addRes c t p1x p2x p1y := by
  by_cases h : p1x = p2x ∧ p1y = p2y
  · exact ⟨_, add_eq_double c p1x p1y p2x p2y h⟩
  · exact ⟨_, add_eq_general c p1x p1y p2x p2y h⟩

/-- Range of the addRes output for a positive modulus. -/
lemma addRes_mem_range (c : Curve) (hP : 0 < c.P) (t p1x p2x p1y : Int) :
    0 ≤ (addRes c t p1x p2x p1y).1 ∧ (addRes c t p1x p2x p1y).1 < c.P ∧
      0 ≤ (addRes c t p1x p2x p1y).2 ∧ (addRes c t p1x p2x p1y).2 < c.P := by
  unfold addRes
  simp only [posP_emod]
  exact ⟨emod_nonneg_of_pos _ hP, emod_lt_of_pos' _ hP,
    emod_nonneg_of_pos _ hP, emod_lt_of_pos' _ hP⟩

/-- Range of the add output for a positive modulus. -/
lemma add_mem_range (c : Curve) (hP : 0 < c.P) (p1x p1y p2x p2y : Int) :
    0 ≤ (c.add p1x p1y p2x p2y).1 ∧ (c.add p1x p1y p2x p2y).1 < c.P ∧
      0 ≤ (c.add p1x p1y p2x p2y).2 ∧ (c.add p1x p1y p2x p2y).2 < c.P := by
  obtain ⟨t, ht⟩ := add_coords c p1x p1y p2x p2y
  rw [ht]
  exact addRes_mem_range c hP t p1x p2x p1y

end BasicLemmas

section ModInverseZero

/-- If the general-addition branch divides by zero, the slope collapses to
zero: a failed inverse leaves the zero receiver, and in the degenerate
moduli 1 and -1 where an inverse of zero does exist, the final reduction
kills the product anyway. -/
lemma modInverse_zero_mul_emod (n ty : Int) :
    ((modInverse 0 n).getD 0 * ty) % n = 0 := by
  rcases h : modInverse 0 n with _ | u
  · simp
  · unfold modInverse at h
    obtain ⟨u0, hfind, rfl⟩ := Option.map_eq_some'.mp h
    have hpred := List.find?_some hfind
    simp only [decide_eq_true_eq] at hpred
    have hone : (1 : Int) % n = 0 := by simpa using hpred.symm
    have hdvd : n ∣ 1 := Int.dvd_of_emod_eq_zero hone
    rcases Int.isUnit_iff.mp (isUnit_of_dvd_one hdvd) with h1 | h1 <;> rw [h1]
    · simp [Int.emod_one]
    · rw [show ((-1 : Int)) = -(1 : Int) by norm_num, Int.emod_neg, Int.emod_one]

end ModInverseZero

/-- C3. Construction validates the base point: NewCurve yields the
InvalidCurveParameters error exactly when the square of Y differs from
X ^ 3 + A * X + B modulo P, and otherwise the descriptor populated with the
supplied values, the both-or-neither Edwards rule and the cofactor default.
Stated for a nonzero modulus, where the Euclidean remainder matches the Go
Mod call (Go panics on a zero modulus). -/
theorem C3_newCurve_validation (p q a b x y : Int) (e d co : Option Int) (hp : p ≠ 0) :
    NewCurve p q a b x y e d co =
      if (y * y) % p = (x ^ 3 + a * x + b) % p
      then Except.ok
        { Name := "unknown", P := p, Q := q, A := a, B := b,
          E := if e.isSome ∧ d.isSome then e else none,
          D := if e.isSome ∧ d.isSome then d else none,
          X := x, Y := y, Co := co.getD 1 }
      else Except.error "gogost/gost3410: invalid curve parameters" := by
  unfold NewCurve
  simp only [show ((x * x + a) * x + b) = (x ^ 3 + a * x + b) by ring, posP_emod, ite_not]

/-- C3 witness: the toy curve parameters construct successfully, and
perturbing Y by one fails with the invalid-parameters error. -/
theorem C3_newCurve_validation_witness :
    (23 : Int) ≠ 0 ∧
      NewCurve 23 28 1 1 3 10 none none none = Except.ok toyCurve ∧
      NewCurve 23 28 1 1 3 11 none none none =
        Except.error "gogost/gost3410: invalid curve parameters" := by
  refine ⟨by norm_num, ?_, ?_⟩
  · rw [C3_newCurve_validation 23 28 1 1 3 10 none none none (by norm_num)]
    decide
  · rw [C3_newCurve_validation 23 28 1 1 3 11 none none none (by norm_num)]
    decide

/-- C5. Zero-scalar rejection and only that: Exp produces an error exactly
when the degree is zero, and that error is the zero-degree one; for any
nonzero degree no error value is ever produced (the loop either returns
coordinates or, lacking fuel, has not returned yet). -/
theorem C5_exp_zero_degree (c : Curve) (degree x y : Int) (fuel : Nat) (e : String) :
    c.Exp degree x y fuel = some (Except.error e) ↔
      degree = 0 ∧ e = "gogost/gost3410: zero degree value" := by
  unfold Curve.Exp
  by_cases h : degree = 0
  · subst h
    rw [if_pos rfl]
    simp [eq_comm]
  · rw [if_neg h]
    show Option.map Except.ok (expLoop c fuel (degree - 1) x y x y) = _ ↔ _
    rcases hE : expLoop c fuel (degree - 1) x y x y with _ | r <;> simp [hE, h]

/-- C9. Frame of the arithmetic: viewed on the argument cells, add writes
only the two coordinates of its first point, returning exactly the value
computed by the arithmetic, and the second point is unchanged; Exp returns
its three argument cells unchanged. -/
theorem C9_frame (c : Curve) (s : AddState) (e : ExpArgs) (fuel : Nat) :
    ((addGo c s).p2x = s.p2x ∧ (addGo c s).p2y = s.p2y) ∧
      ((addGo c s).p1x, (addGo c s).p1y) = c.add s.p1x s.p1y s.p2x s.p2y ∧
      (expGo c e fuel).1 = e :=
  ⟨⟨rfl, rfl⟩, rfl, rfl⟩

/-- C10. Totality of add on inverse-pair inputs: with equal first
coordinates and distinct second coordinates the general branch runs, the
inverse of the zero difference fails leaving the slope at zero, and add
terminates with first coordinate (- p1x - p2x) mod P and second coordinate
(- p1y) mod P. -/
theorem C10_add_inverse_pair (c : Curve) (p1x p1y p2x p2y : Int)
    (hx : p1x = p2x) (hy : p1y ≠ p2y) :
    c.add p1x p1y p2x p2y = ((-p1x - p2x) % c.P, (-p1y) % c.P) := by
  subst hx
  have hpair : ¬ (p1x = p1x ∧ p1y = p2y) := fun h => hy h.2
  rw [add_eq_general c p1x p1y p1x p2y hpair]
  unfold lamGen addRes
  have h0 : posP c.P ((p1x - p1x) % c.P) = 0 := by
    simp [posP]
  rw [h0, modInverse_zero_mul_emod c.P (posP c.P ((p2y - p1y) % c.P))]
  rw [show (0 : Int) * 0 - p1x - p1x = -p1x - p1x by ring, posP_emod]
  rw [show (p1x - (-p1x - p1x) % c.P) * 0 - p1y = -p1y by ring, posP_emod]

/-- C10 witness: on the toy curve the inverse pair (3, 10) and (3, 13)
terminates and produces the claimed coordinates. -/
theorem C10_add_inverse_pair_witness :
    (3 : Int) = 3 ∧ (10 : Int) ≠ 13 ∧
      toyCurve.add 3 10 3 13 = ((-3 - 3) % (23 : Int), (-10) % (23 : Int)) :=
  ⟨rfl, by decide, C10_add_inverse_pair toyCurve 3 10 3 13 rfl (by decide)⟩

section Termination

/-- Fuel characterization of the double-and-add loop on a nonnegative
remaining degree: it finishes within the given fuel exactly when the degree
fits in that many bits. -/
lemma expLoop_isSome_iff (c : Curve) :
    ∀ (fuel : Nat) (dg : Int), 0 ≤ dg → ∀ tx ty cx cy,
      (expLoop c fuel dg tx ty cx cy).isSome ↔ dg < 2 ^ fuel := by
  intro fuel
  induction fuel with
  | zero =>
    intro dg hdg tx ty cx cy
    by_cases h : dg = 0 <;> simp [expLoop, h] <;> omega
  | succ fuel ih =>
    intro dg hdg tx ty cx cy
    by_cases h : dg = 0
    · simp [expLoop, h]
    · rw [expLoop, if_neg h]
      show (expLoop c fuel (dg / 2)
          (if dg % 2 = 1 then c.add tx ty cx cy else (tx, ty)).1
          (if dg % 2 = 1 then c.add tx ty cx cy else (tx, ty)).2
          (c.add cx cy cx cy).1 (c.add cx cy cx cy).2).isSome = true ↔ dg < 2 ^ (fuel + 1)
      rw [ih (dg / 2) (Int.ediv_nonneg hdg (by norm_num)),
        Int.ediv_lt_iff_lt_mul (by norm_num : (0 : Int) < 2), pow_succ]

/-- With a negative remaining degree the loop never reaches zero: the
arithmetic right shift of a negative value stays negative. -/
lemma expLoop_neg_none (c : Curve) :
    ∀ (fuel : Nat) (dg : Int), dg < 0 → ∀ tx ty cx cy,
      expLoop c fuel dg tx ty cx cy = none := by
  intro fuel
  induction fuel with
  | zero =>
    intro dg hdg tx ty cx cy
    simp [expLoop, show dg ≠ 0 by omega]
  | succ fuel ih =>
    intro dg hdg tx ty cx cy
    rw [expLoop, if_neg (show dg ≠ 0 by omega)]
    refine ih (dg / 2) ?_ _ _ _ _
    have : dg / 2 ≤ (-1 : Int) / 2 :=
      Int.ediv_le_ediv (by norm_num) (by omega)
    omega

end Termination

/-- With a negative degree, Exp never returns for any amount of fuel. -/
lemma exp_neg_none (c : Curve) (degree x y : Int) (hd : degree < 0) (fuel : Nat) :
    c.Exp degree x y fuel = none := by
  rw [Curve.Exp, if_neg (by omega : ¬ degree = 0)]
  show Option.map Except.ok (expLoop c fuel (degree - 1) x y x y) = none
  rw [expLoop_neg_none c fuel (degree - 1) (by omega) x y x y]
  rfl

/-- C8 counterexample: Exp called with the negative degree -1 on the toy
curve never terminates, for any amount of fuel, refuting termination for
arbitrary integer scalars. -/
theorem C8_counterexample_negative : ¬ ExpTerminates toyCurve (-1) 3 10 := by
  rintro ⟨fuel, r, h⟩
  rw [exp_neg_none toyCurve (-1) 3 10 (by norm_num) fuel] at h
  exact Option.noConfusion h

/-- C8 amended. Bounded termination for positive scalars: for any degree at
least 1, Exp terminates within exactly the bit length of degree - 1 loop
iterations; with any less fuel the loop has not finished. -/
theorem C8_termination_bitlen (c : Curve) (degree x y : Int) (h : 1 ≤ degree) :
    (∃ r, c.Exp degree x y (degree - 1).toNat.size = some (Except.ok r)) ∧
      ∀ fuel : Nat, fuel < (degree - 1).toNat.size → c.Exp degree x y fuel = none := by
  have hne : degree ≠ 0 := by omega
  have hcast : degree - 1 = ((degree - 1).toNat : Int) := by omega
  constructor
  · have hsome : (expLoop c (degree - 1).toNat.size (degree - 1) x y x y).isSome := by
      rw [expLoop_isSome_iff c _ _ (by omega), hcast]
      exact_mod_cast Nat.lt_size_self (degree - 1).toNat
    obtain ⟨r, hr⟩ := Option.isSome_iff_exists.mp hsome
    refine ⟨r, ?_⟩
    rw [Curve.Exp, if_neg hne]
    show Option.map Except.ok (expLoop c (degree - 1).toNat.size (degree - 1) x y x y) =
      some (Except.ok r)
    rw [hr]
    rfl
  · intro fuel hfuel
    have hnone : expLoop c fuel (degree - 1) x y x y = none := by
      have hns : ¬ (degree - 1 < 2 ^ fuel) := by
        intro hlt
        have hc : ((2 ^ fuel : Nat) : Int) = 2 ^ fuel := by push_cast; ring
        have hsz : (degree - 1).toNat.size ≤ fuel := by
          rw [Nat.size_le]
          omega
        omega
      rcases hE : expLoop c fuel (degree - 1) x y x y with _ | r
      · rfl
      · exact absurd ((expLoop_isSome_iff c fuel _ (by omega) x y x y).mp (by simp [hE])) hns
    rw [Curve.Exp, if_neg hne]
    show Option.map Except.ok (expLoop c fuel (degree - 1) x y x y) = none
    rw [hnone]
    rfl

/-- C8 amended witness: on the toy curve with degree 3 the loop finishes
with fuel 2, the bit length of 2, and not with fuel below 2. -/
theorem C8_termination_bitlen_witness :
    (1 : Int) ≤ 3 ∧
      (∃ r, toyCurve.Exp 3 3 10 ((3 - 1 : Int).toNat.size) = some (Except.ok r)) ∧
      ∀ fuel : Nat, fuel < (3 - 1 : Int).toNat.size → toyCurve.Exp 3 3 10 fuel = none :=
  ⟨by norm_num, (C8_termination_bitlen toyCurve 3 3 10 (by norm_num)).1,
    (C8_termination_bitlen toyCurve 3 3 10 (by norm_num)).2⟩

/-- On presence-aligned optional coefficients the Edwards clause of Equal
reduces to plain option equality without any nil dereference. -/
lemma aligned_clause (x y : Option Int) (h : x.isSome = y.isSome) :
    (if x = none ∧ y = none then some true else cmpEqNil x y) =
      some (decide (x = y)) := by
  rcases x with _ | a <;> rcases y with _ | b <;> simp_all [cmpEqNil]

/-- C6 amended. Descriptor equality on presence-aligned descriptors: when
the two descriptors agree on whether Edwards coefficients are present (and
likewise for D), Equal returns exactly the truth value of the conjunction
of all nine field comparisons; in particular it returns false rather than
failing whenever a single scalar field differs or both carry Edwards
coefficients with different values. (With mixed presence and equal scalar
fields it instead dereferences nil, see the counterexample.) -/
theorem C6_equal_aligned (c1 c2 : Curve)
    (hE : c1.E.isSome = c2.E.isSome) (hD : c1.D.isSome = c2.D.isSome) :
    c1.Equal c2 = some (decide (c1.P = c2.P ∧ c1.Q = c2.Q ∧ c1.A = c2.A ∧ c1.B = c2.B ∧
      c1.X = c2.X ∧ c1.Y = c2.Y ∧ c1.E = c2.E ∧ c1.D = c2.D ∧ c1.Co = c2.Co)) := by
  unfold Curve.Equal
  rw [aligned_clause c1.E c2.E hE]
  simp only [aligned_clause c1.D c2.D hD]
  by_cases h6 : c1.P = c2.P ∧ c1.Q = c2.Q ∧ c1.A = c2.A ∧ c1.B = c2.B ∧
      c1.X = c2.X ∧ c1.Y = c2.Y
  · rw [if_pos h6]
    obtain ⟨hP, hQ, hA, hB, hX, hY⟩ := h6
    by_cases hEq : c1.E = c2.E
    · by_cases hDq : c1.D = c2.D
      · simp [andSC, hEq, hDq, hP, hQ, hA, hB, hX, hY]
      · simp [andSC, hEq, hDq, hP, hQ, hA, hB, hX, hY]
    · simp [andSC, hEq, hP, hQ, hA, hB, hX, hY]
  · rw [if_neg h6]
    have hfalse : ¬(c1.P = c2.P ∧ c1.Q = c2.Q ∧ c1.A = c2.A ∧ c1.B = c2.B ∧
        c1.X = c2.X ∧ c1.Y = c2.Y ∧ c1.E = c2.E ∧ c1.D = c2.D ∧ c1.Co = c2.Co) := by
      intro hh
      exact h6 ⟨hh.1, hh.2.1, hh.2.2.1, hh.2.2.2.1, hh.2.2.2.2.1, hh.2.2.2.2.2.1⟩
    simp [hfalse]

/-- C6 witness: a descriptor equals itself, with both Edwards sides
absent. -/
theorem C6_equal_aligned_witness :
    toyCurve.Equal toyCurve =
      some (decide (toyCurve.P = toyCurve.P ∧ toyCurve.Q = toyCurve.Q ∧
        toyCurve.A = toyCurve.A ∧ toyCurve.B = toyCurve.B ∧ toyCurve.X = toyCurve.X ∧
        toyCurve.Y = toyCurve.Y ∧ toyCurve.E = toyCurve.E ∧ toyCurve.D = toyCurve.D ∧
        toyCurve.Co = toyCurve.Co)) :=
  C6_equal_aligned toyCurve toyCurve rfl rfl

/-- C6 counterexample: with identical scalar fields and Edwards
coefficients on exactly one side, Equal dereferences a nil big.Int
(modelled as none) instead of returning false. -/
theorem C6_counterexample_mixed_edwards :
    toyCurve.Equal toyCurveEd = none ∧ toyCurve.Equal toyCurveEd ≠ some false :=
  ⟨by decide, by decide⟩

section ZModBridge

/-- The short Weierstrass curve over ZMod p carrying the coefficients A and
B of a descriptor; the spec curve equation is y ^ 2 = x ^ 3 + A * x + B. -/
def Wcurve (c : Curve) (p : ℕ) : WeierstrassCurve.Affine (ZMod p) :=
  { a₁ := 0, a₂ := 0, a₃ := 0, a₄ := ((c.A : Int) : ZMod p), a₆ := ((c.B : Int) : ZMod p) }

variable {p : ℕ}

lemma castInt_emod (v : Int) : (((v % (p : Int)) : Int) : ZMod p) = (v : ZMod p) := by
  rw [ZMod.intCast_eq_intCast_iff']
  exact Int.emod_emod_of_dvd v dvd_rfl

lemma castInt_posP_emod (v : Int) :
    ((posP (p : Int) (v % (p : Int)) : Int) : ZMod p) = (v : ZMod p) := by
  rw [posP_emod, castInt_emod]

lemma cast_eq_iff_of_range {a b : Int} (ha0 : 0 ≤ a) (ha : a < (p : Int))
    (hb0 : 0 ≤ b) (hb : b < (p : Int)) :
    ((a : ZMod p) = (b : ZMod p)) ↔ a = b := by
  rw [ZMod.intCast_eq_intCast_iff', Int.emod_eq_of_lt ha0 ha, Int.emod_eq_of_lt hb0 hb]

lemma cast_ne_zero_of_range {a : Int} (hp : 0 < p) (ha0 : 0 ≤ a) (ha : a < (p : Int))
    (hne : a ≠ 0) : ((a : Int) : ZMod p) ≠ 0 := by
  intro h
  apply hne
  have h0 : ((0 : Int) : ZMod p) = 0 := by push_cast; rfl
  exact (cast_eq_iff_of_range ha0 ha le_rfl (by exact_mod_cast hp)).mp (by rw [h, h0])

/-- The value of two in ZMod p is nonzero for a prime p other than 2. -/
lemma two_ne_zero_zmod (hp : p.Prime) (h2 : p ≠ 2) : (2 : ZMod p) ≠ 0 := by
  intro h
  have h0 : ((2 : ℕ) : ZMod p) = 0 := by exact_mod_cast h
  have hdvd : p ∣ 2 := (ZMod.natCast_zmod_eq_zero_iff_dvd 2 p).mp h0
  rcases (Nat.dvd_prime Nat.prime_two).mp hdvd with h1 | h1
  · exact Nat.Prime.ne_one hp h1
  · exact h2 h1

/-- A cast of the val of an element of ZMod p is the element itself. -/
lemma val_intCast_self [NeZero p] (a : ZMod p) : (((a.val : Int)) : ZMod p) = a := by
  push_cast
  rw [ZMod.natCast_val, ZMod.cast_id]

/-- On an argument that is a unit mod a prime p, modInverse finds the
inverse, and it casts to the field inverse in ZMod p. -/
lemma modInverse_cast (hp : p.Prime) (g : Int) (hg : ((g : Int) : ZMod p) ≠ 0) :
    ∃ u : Int, modInverse g (p : Int) = some u ∧ ((u : Int) : ZMod p) = ((g : Int) : ZMod p)⁻¹ := by
  haveI : Fact p.Prime := ⟨hp⟩
  have hppos : 0 < p := hp.pos
  have hvlt : ((g : ZMod p)⁻¹).val < p := ZMod.val_lt _
  have hsat : (g * (((g : ZMod p)⁻¹).val : Int)) % (p : Int) = 1 % (p : Int) := by
    rw [← ZMod.intCast_eq_intCast_iff']
    push_cast
    rw [ZMod.natCast_val, ZMod.cast_id, mul_inv_cancel₀ hg]
  have hmem : ((g : ZMod p)⁻¹).val ∈ List.range (p : Int).toNat := by
    rw [List.mem_range]
    omega
  have hexists : (List.range (p : Int).toNat).find?
      (fun u : Nat => decide ((g * (u : Int)) % (p : Int) = 1 % (p : Int))) |>.isSome := by
    rw [List.find?_isSome]
    exact ⟨_, hmem, by simpa using hsat⟩
  obtain ⟨u0, hu0⟩ := Option.isSome_iff_exists.mp hexists
  have hpred := List.find?_some hu0
  simp only [decide_eq_true_eq] at hpred
  refine ⟨(u0 : Int), ?_, ?_⟩
  · unfold modInverse
    rw [hu0]
    rfl
  · have hcast : ((g : ZMod p)) * ((u0 : Int) : ZMod p) = 1 := by
      have := (ZMod.intCast_eq_intCast_iff' _ _ _).mpr hpred
      push_cast at this
      simpa using this
    exact (inv_eq_of_mul_eq_one_right hcast).symm

/-- Cast of the getD-wrapped modInverse on a unit argument. -/
lemma modInverse_getD_cast (hp : p.Prime) (g d : Int) (hg : ((g : Int) : ZMod p) ≠ 0) :
    (((modInverse g (p : Int)).getD d : Int) : ZMod p) = ((g : Int) : ZMod p)⁻¹ := by
  obtain ⟨u, hu, hcast⟩ := modInverse_cast hp g hg
  rw [hu]
  exact hcast

/-- Cast of the general-branch slope: the claimed formula
(p2y - p1y) times the inverse of (p2x - p1x), in the field. -/
lemma lamGen_cast (hp : p.Prime) (c : Curve) (hP : c.P = (p : Int)) (x1 y1 x2 y2 : Int)
    (hx : ((x2 : ZMod p) - (x1 : ZMod p)) ≠ 0) :
    ((lamGen c x1 y1 x2 y2 : Int) : ZMod p) =
      ((y2 : ZMod p) - (y1 : ZMod p)) * ((x2 : ZMod p) - (x1 : ZMod p))⁻¹ := by
  unfold lamGen
  rw [hP, castInt_emod]
  push_cast
  rw [castInt_posP_emod]
  have hg : ((posP (p : Int) ((x2 - x1) % (p : Int)) : Int) : ZMod p) ≠ 0 := by
    rw [castInt_posP_emod]
    push_cast
    exact hx
  rw [modInverse_getD_cast hp _ _ hg, castInt_posP_emod]
  push_cast
  ring

/-- Cast of the doubling-branch slope: the claimed formula
(3 * x ^ 2 + A) times the inverse of (2 * y), in the field. -/
lemma lamDbl_cast (hp : p.Prime) (c : Curve) (hP : c.P = (p : Int)) (x y : Int)
    (hy : (2 * (y : ZMod p)) ≠ 0) :
    ((lamDbl c x y : Int) : ZMod p) =
      (3 * (x : ZMod p) ^ 2 + ((c.A : Int) : ZMod p)) * (2 * (y : ZMod p))⁻¹ := by
  unfold lamDbl
  rw [hP, castInt_emod]
  push_cast
  rw [modInverse_getD_cast hp _ _ (by push_cast; exact hy)]
  push_cast
  ring

/-- Cast of the first output coordinate of addRes. -/
lemma addRes_cast1 (c : Curve) (hP : c.P = (p : Int)) (t x1 x2 y1 : Int) :
    (((addRes c t x1 x2 y1).1 : Int) : ZMod p) = ((t * t - x1 - x2 : Int) : ZMod p) := by
  unfold addRes
  rw [hP]
  exact castInt_posP_emod _

/-- Cast of the second output coordinate of addRes. -/
lemma addRes_cast2 (c : Curve) (hP : c.P = (p : Int)) (t x1 x2 y1 : Int) :
    (((addRes c t x1 x2 y1).2 : Int) : ZMod p) =
      ((x1 : ZMod p) - (((addRes c t x1 x2 y1).1 : Int) : ZMod p)) * (t : ZMod p) -
        (y1 : ZMod p) := by
  have hsplit : (addRes c t x1 x2 y1).2 =
      posP c.P (((x1 - (addRes c t x1 x2 y1).1) * t - y1) % c.P) := rfl
  rw [hsplit, hP, castInt_posP_emod]
  push_cast
  ring

/-- Negation formula of the embedded curve. -/
lemma Wcurve_negY (c : Curve) (x y : ZMod p) : (Wcurve c p).negY x y = -y := by
  simp [WeierstrassCurve.Affine.negY, Wcurve]

/-- The addX formula of the embedded curve in short Weierstrass form. -/
lemma Wcurve_addX (c : Curve) (x1 x2 L : ZMod p) :
    (Wcurve c p).addX x1 x2 L = L ^ 2 - x1 - x2 := by
  simp [WeierstrassCurve.Affine.addX, Wcurve]

/-- The addY formula of the embedded curve in short Weierstrass form. -/
lemma Wcurve_addY (c : Curve) (x1 x2 y1 L : ZMod p) :
    (Wcurve c p).addY x1 x2 y1 L = L * (x1 - (Wcurve c p).addX x1 x2 L) - y1 := by
  simp only [WeierstrassCurve.Affine.addY, WeierstrassCurve.Affine.negAddY, Wcurve_negY]
  ring

/-- Slope of the embedded curve through two points with distinct abscissas,
in the multiplicative-inverse form used by the spec. -/
lemma Wcurve_slope_ne [Fact p.Prime] (c : Curve) {x1 x2 y1 y2 : ZMod p} (hx : x1 ≠ x2) :
    (Wcurve c p).slope x1 x2 y1 y2 = (y2 - y1) * (x2 - x1)⁻¹ := by
  rw [WeierstrassCurve.Affine.slope_of_X_ne hx]
  have h1 : x1 - x2 ≠ 0 := sub_ne_zero_of_ne hx
  have h2 : x2 - x1 ≠ 0 := sub_ne_zero_of_ne (Ne.symm hx)
  field_simp
  ring

/-- Tangent slope of the embedded curve, in the multiplicative-inverse form
used by the spec. -/
lemma Wcurve_slope_eq [Fact p.Prime] (c : Curve) {x y : ZMod p} (hy : 2 * y ≠ 0) :
    (Wcurve c p).slope x x y y =
      (3 * x ^ 2 + ((c.A : Int) : ZMod p)) * (2 * y)⁻¹ := by
  have hnegY : y ≠ (Wcurve c p).negY x y := by
    rw [Wcurve_negY]
    intro h
    apply hy
    linear_combination h
  rw [WeierstrassCurve.Affine.slope_of_Y_ne rfl hnegY, Wcurve_negY]
  have hd : y - -y = 2 * y := by ring
  rw [hd, div_eq_mul_inv]
  congr 1
  simp only [Wcurve]
  ring

/-- Correspondence of add with the Mathlib group-law coordinates, general
branch: coordinate-wise distinct inputs whose abscissas differ in the
field. -/
lemma add_spec_general [Fact p.Prime] {c : Curve} (hP : c.P = (p : Int)) {x1 y1 x2 y2 : Int}
    (hne : ¬(x1 = x2 ∧ y1 = y2)) (hx : ((x1 : Int) : ZMod p) ≠ ((x2 : Int) : ZMod p)) :
    (((c.add x1 y1 x2 y2).1 : Int) : ZMod p) =
      (Wcurve c p).addX ((x1 : Int) : ZMod p) ((x2 : Int) : ZMod p)
        ((Wcurve c p).slope ((x1 : Int) : ZMod p) ((x2 : Int) : ZMod p)
          ((y1 : Int) : ZMod p) ((y2 : Int) : ZMod p)) ∧
    (((c.add x1 y1 x2 y2).2 : Int) : ZMod p) =
      (Wcurve c p).addY ((x1 : Int) : ZMod p) ((x2 : Int) : ZMod p) ((y1 : Int) : ZMod p)
        ((Wcurve c p).slope ((x1 : Int) : ZMod p) ((x2 : Int) : ZMod p)
          ((y1 : Int) : ZMod p) ((y2 : Int) : ZMod p)) := by
  have hp : p.Prime := Fact.out
  have hxsub : ((x2 : Int) : ZMod p) - ((x1 : Int) : ZMod p) ≠ 0 :=
    sub_ne_zero_of_ne (Ne.symm hx)
  have hslope : ((lamGen c x1 y1 x2 y2 : Int) : ZMod p) =
      (Wcurve c p).slope ((x1 : Int) : ZMod p) ((x2 : Int) : ZMod p)
        ((y1 : Int) : ZMod p) ((y2 : Int) : ZMod p) := by
    rw [Wcurve_slope_ne c hx, lamGen_cast hp c hP x1 y1 x2 y2 hxsub]
  rw [add_eq_general c x1 y1 x2 y2 hne]
  have h1 : (((addRes c (lamGen c x1 y1 x2 y2) x1 x2 y1).1 : Int) : ZMod p) =
      (Wcurve c p).addX ((x1 : Int) : ZMod p) ((x2 : Int) : ZMod p)
        ((Wcurve c p).slope ((x1 : Int) : ZMod p) ((x2 : Int) : ZMod p)
          ((y1 : Int) : ZMod p) ((y2 : Int) : ZMod p)) := by
    rw [addRes_cast1 c hP, Wcurve_addX]
    push_cast
    rw [hslope]
    ring
  refine ⟨h1, ?_⟩
  rw [addRes_cast2 c hP, h1, hslope, Wcurve_addY]
  ring

/-- Correspondence of add with the Mathlib group-law coordinates, doubling
branch: coordinate-wise identical inputs with nonzero doubled ordinate. -/
lemma add_spec_double [Fact p.Prime] {c : Curve} (hP : c.P = (p : Int)) {x1 y1 : Int}
    (hy : 2 * ((y1 : Int) : ZMod p) ≠ 0) :
    (((c.add x1 y1 x1 y1).1 : Int) : ZMod p) =
      (Wcurve c p).addX ((x1 : Int) : ZMod p) ((x1 : Int) : ZMod p)
        ((Wcurve c p).slope ((x1 : Int) : ZMod p) ((x1 : Int) : ZMod p)
          ((y1 : Int) : ZMod p) ((y1 : Int) : ZMod p)) ∧
    (((c.add x1 y1 x1 y1).2 : Int) : ZMod p) =
      (Wcurve c p).addY ((x1 : Int) : ZMod p) ((x1 : Int) : ZMod p) ((y1 : Int) : ZMod p)
        ((Wcurve c p).slope ((x1 : Int) : ZMod p) ((x1 : Int) : ZMod p)
          ((y1 : Int) : ZMod p) ((y1 : Int) : ZMod p)) := by
  have hp : p.Prime := Fact.out
  have hslope : ((lamDbl c x1 y1 : Int) : ZMod p) =
      (Wcurve c p).slope ((x1 : Int) : ZMod p) ((x1 : Int) : ZMod p)
        ((y1 : Int) : ZMod p) ((y1 : Int) : ZMod p) := by
    rw [Wcurve_slope_eq c hy, lamDbl_cast hp c hP x1 y1 hy]
  rw [add_eq_double c x1 y1 x1 y1 ⟨rfl, rfl⟩]
  have h1 : (((addRes c (lamDbl c x1 y1) x1 x1 y1).1 : Int) : ZMod p) =
      (Wcurve c p).addX ((x1 : Int) : ZMod p) ((x1 : Int) : ZMod p)
        ((Wcurve c p).slope ((x1 : Int) : ZMod p) ((x1 : Int) : ZMod p)
          ((y1 : Int) : ZMod p) ((y1 : Int) : ZMod p)) := by
    rw [addRes_cast1 c hP, Wcurve_addX]
    push_cast
    rw [hslope]
    ring
  refine ⟨h1, ?_⟩
  rw [addRes_cast2 c hP, h1, hslope, Wcurve_addY]
  ring

/-- The slope of the spec, section 4.2: tangent slope for coordinate-wise
identical points, secant slope otherwise, with modular inverses. This is
the claim-side formula, written from the spec text, to be compared with
the computation of add. -/
def specSlope (p : ℕ) (c : Curve) (x1 y1 x2 y2 : Int) : ZMod p :=
  if (x1, y1) = (x2, y2) then
    (3 * ((x1 : Int) : ZMod p) ^ 2 + ((c.A : Int) : ZMod p)) * (2 * ((y1 : Int) : ZMod p))⁻¹
  else
    (((y2 : Int) : ZMod p) - ((y1 : Int) : ZMod p)) *
      (((x2 : Int) : ZMod p) - ((x1 : Int) : ZMod p))⁻¹

end ZModBridge

/-- C2. The addition primitive computes the affine Weierstrass formulas:
for in-range inputs over a prime modulus, add selects doubling on
coordinate-wise identical points with tangent slope
(3 x1 ^ 2 + A) (2 y1)⁻¹ and otherwise the secant slope
(y2 - y1) (x2 - x1)⁻¹ over the field, writes
x3 = L ^ 2 - x1 - x2 and y3 = L (x1 - x3) - y1 modulo P into the first
point, both coordinates normalized into the range [0, P). The slope
denominator is assumed invertible in its branch. -/
theorem C2_add_weierstrass (p : ℕ) (c : Curve) (x1 y1 x2 y2 : Int)
    (hp : p.Prime) (hP : c.P = (p : Int))
    (hden : if (x1, y1) = (x2, y2) then 2 * ((y1 : Int) : ZMod p) ≠ 0
      else ((x2 : Int) : ZMod p) - ((x1 : Int) : ZMod p) ≠ 0) :
    (0 ≤ (c.add x1 y1 x2 y2).1 ∧ (c.add x1 y1 x2 y2).1 < c.P ∧
      0 ≤ (c.add x1 y1 x2 y2).2 ∧ (c.add x1 y1 x2 y2).2 < c.P) ∧
    (((c.add x1 y1 x2 y2).1 : Int) : ZMod p) =
      specSlope p c x1 y1 x2 y2 ^ 2 - ((x1 : Int) : ZMod p) - ((x2 : Int) : ZMod p) ∧
    (((c.add x1 y1 x2 y2).2 : Int) : ZMod p) =
      specSlope p c x1 y1 x2 y2 *
        (((x1 : Int) : ZMod p) - (((c.add x1 y1 x2 y2).1 : Int) : ZMod p)) -
        ((y1 : Int) : ZMod p) := by
  haveI : Fact p.Prime := ⟨hp⟩
  have hppos : (0 : Int) < c.P := by
    rw [hP]
    exact_mod_cast hp.pos
  refine ⟨add_mem_range c hppos x1 y1 x2 y2, ?_⟩
  by_cases hpair : (x1, y1) = (x2, y2)
  · rw [if_pos hpair] at hden
    obtain ⟨hx12, hy12⟩ := Prod.mk.injEq x1 y1 x2 y2 ▸ hpair
    subst hx12
    subst hy12
    obtain ⟨hc1, hc2⟩ := add_spec_double hP hden
    rw [hc1, hc2, Wcurve_addX, Wcurve_addY, Wcurve_addX,
      Wcurve_slope_eq c hden, specSlope, if_pos rfl]
    exact ⟨rfl, rfl⟩
  · rw [if_neg hpair] at hden
    have hne : ¬(x1 = x2 ∧ y1 = y2) := by
      intro h
      exact hpair (by rw [h.1, h.2])
    have hx : ((x1 : Int) : ZMod p) ≠ ((x2 : Int) : ZMod p) := by
      intro h
      apply hden
      rw [h]
      ring
    obtain ⟨hc1, hc2⟩ := add_spec_general hP hne hx
    rw [hc1, hc2, Wcurve_addX, Wcurve_addY, Wcurve_addX,
      Wcurve_slope_ne c hx, specSlope, if_neg hpair]
    exact ⟨rfl, rfl⟩

/-- Int-level curve equation modulo P matches the Mathlib equation of the
embedded curve over ZMod p. -/
lemma equation_iff_int {p : ℕ} (c : Curve) (hP : c.P = (p : Int)) (x y : Int) :
    ((y * y) % c.P = (x ^ 3 + c.A * x + c.B) % c.P) ↔
      (Wcurve c p).Equation ((x : Int) : ZMod p) ((y : Int) : ZMod p) := by
  rw [WeierstrassCurve.Affine.equation_iff, hP]
  constructor
  · intro h
    have hz := (ZMod.intCast_eq_intCast_iff' (y * y) (x ^ 3 + c.A * x + c.B) p).mpr h
    push_cast at hz
    simp only [Wcurve]
    linear_combination hz
  · intro h
    rw [← ZMod.intCast_eq_intCast_iff']
    push_cast
    simp only [Wcurve] at h
    linear_combination h

/-- Nondegeneracy of an ordered input pair of add: either coordinate-wise
identical with nonzero ordinate (honest doubling) or distinct abscissas
(honest secant addition). -/
def goodPairB (pt1 pt2 : Int × Int) : Bool :=
  (decide (pt1 = pt2) && decide (pt1.2 ≠ 0)) || decide (pt1.1 ≠ pt2.1)

lemma goodPairB_iff (pt1 pt2 : Int × Int) :
    goodPairB pt1 pt2 = true ↔ ((pt1 = pt2 ∧ pt1.2 ≠ 0) ∨ pt1.1 ≠ pt2.1) := by
  simp [goodPairB]

/-- Range of the general-branch slope for a positive modulus. -/
lemma lamGen_mem_range (c : Curve) (hP : 0 < c.P) (x1 y1 x2 y2 : Int) :
    0 ≤ lamGen c x1 y1 x2 y2 ∧ lamGen c x1 y1 x2 y2 < c.P := by
  unfold lamGen
  exact ⟨emod_nonneg_of_pos _ hP, emod_lt_of_pos' _ hP⟩

/-- C4 amended. Closure away from the degenerate cases: over a valid odd
prime modulus, adding two in-range points of the curve whose pair is
nondegenerate (identical with nonzero ordinate, or distinct abscissas)
produces a point satisfying the curve equation modulo P. -/
theorem C4_closure_nondegenerate (p : ℕ) (c : Curve) (x1 y1 x2 y2 : Int)
    (hp : p.Prime) (h2 : p ≠ 2) (hP : c.P = (p : Int))
    (hx10 : 0 ≤ x1) (hx1p : x1 < c.P) (hy10 : 0 ≤ y1) (hy1p : y1 < c.P)
    (hx20 : 0 ≤ x2) (hx2p : x2 < c.P) (hy20 : 0 ≤ y2) (hy2p : y2 < c.P)
    (heq1 : (y1 * y1) % c.P = (x1 ^ 3 + c.A * x1 + c.B) % c.P)
    (heq2 : (y2 * y2) % c.P = (x2 ^ 3 + c.A * x2 + c.B) % c.P)
    (hgood : goodPairB (x1, y1) (x2, y2) = true) :
    ((c.add x1 y1 x2 y2).2 * (c.add x1 y1 x2 y2).2) % c.P =
      ((c.add x1 y1 x2 y2).1 ^ 3 + c.A * (c.add x1 y1 x2 y2).1 + c.B) % c.P := by
  haveI : Fact p.Prime := ⟨hp⟩
  rw [equation_iff_int c hP] at heq1 heq2 ⊢
  rw [goodPairB_iff] at hgood
  rw [hP] at hx1p hy1p hx2p hy2p
  rcases hgood with ⟨hpair, hy0⟩ | hxne
  · have hx12 : x1 = x2 := congrArg Prod.fst hpair
    have hy12 : y1 = y2 := congrArg Prod.snd hpair
    subst hx12
    subst hy12
    have hyz : ((y1 : Int) : ZMod p) ≠ 0 :=
      cast_ne_zero_of_range hp.pos hy10 hy1p hy0
    have h2y : 2 * ((y1 : Int) : ZMod p) ≠ 0 :=
      mul_ne_zero (two_ne_zero_zmod hp h2) hyz
    obtain ⟨hc1, hc2⟩ := add_spec_double hP h2y
    rw [hc1, hc2]
    refine WeierstrassCurve.Affine.equation_add heq1 heq1 (fun _ => ?_)
    rw [Wcurve_negY]
    intro hcon
    apply h2y
    linear_combination hcon
  · have hxz : ((x1 : Int) : ZMod p) ≠ ((x2 : Int) : ZMod p) := by
      intro h
      exact hxne ((cast_eq_iff_of_range hx10 hx1p hx20 hx2p).mp h)
    have hne : ¬(x1 = x2 ∧ y1 = y2) := fun h => hxne h.1
    obtain ⟨hc1, hc2⟩ := add_spec_general hP hne hxz
    rw [hc1, hc2]
    exact WeierstrassCurve.Affine.equation_add heq1 heq2 (fun h => absurd h hxz)

/-- C4 counterexample: on the toy curve the points (3, 10) and (3, 13) are
both in range and on the curve, yet the sum computed by add violates the
curve equation, refuting closure for arbitrary point pairs. -/
theorem C4_counterexample_inverse_pair :
    ((10 * 10) % toyCurve.P = ((3 : Int) ^ 3 + toyCurve.A * 3 + toyCurve.B) % toyCurve.P ∧
      (13 * 13) % toyCurve.P = ((3 : Int) ^ 3 + toyCurve.A * 3 + toyCurve.B) % toyCurve.P) ∧
    ¬(((toyCurve.add 3 10 3 13).2 * (toyCurve.add 3 10 3 13).2) % toyCurve.P =
      ((toyCurve.add 3 10 3 13).1 ^ 3 + toyCurve.A * (toyCurve.add 3 10 3 13).1 + toyCurve.B) %
        toyCurve.P) :=
  ⟨⟨by decide, by decide⟩, by decide⟩

/-- C4 amended witness: doubling the toy base point lands on the curve. -/
theorem C4_closure_nondegenerate_witness :
    ((toyCurve.add 3 10 3 10).2 * (toyCurve.add 3 10 3 10).2) % toyCurve.P =
      ((toyCurve.add 3 10 3 10).1 ^ 3 + toyCurve.A * (toyCurve.add 3 10 3 10).1 + toyCurve.B) %
        toyCurve.P :=
  C4_closure_nondegenerate 23 toyCurve 3 10 3 10 (by norm_num) (by norm_num) rfl
    (by decide) (by decide) (by decide) (by decide) (by decide) (by decide) (by decide)
    (by decide) (by decide) (by decide) (by decide)

/-- C7 amended. Commutativity of add on points with distinct abscissas:
over a valid prime modulus, for in-range points of the curve with distinct
first coordinates, the two addition orders produce identical results. -/
theorem C7_add_comm_distinct_x (p : ℕ) (c : Curve) (x1 y1 x2 y2 : Int)
    (hp : p.Prime) (hP : c.P = (p : Int))
    (hx10 : 0 ≤ x1) (hx1p : x1 < c.P) (hy10 : 0 ≤ y1) (hy1p : y1 < c.P)
    (hx20 : 0 ≤ x2) (hx2p : x2 < c.P) (hy20 : 0 ≤ y2) (hy2p : y2 < c.P)
    (heq1 : (y1 * y1) % c.P = (x1 ^ 3 + c.A * x1 + c.B) % c.P)
    (heq2 : (y2 * y2) % c.P = (x2 ^ 3 + c.A * x2 + c.B) % c.P)
    (hxne : x1 ≠ x2) :
    c.add x1 y1 x2 y2 = c.add x2 y2 x1 y1 := by
  haveI : Fact p.Prime := ⟨hp⟩
  have hppos : (0 : Int) < c.P := by
    rw [hP]
    exact_mod_cast hp.pos
  have hne12 : ¬(x1 = x2 ∧ y1 = y2) := fun h => hxne h.1
  have hne21 : ¬(x2 = x1 ∧ y2 = y1) := fun h => hxne h.1.symm
  rw [hP] at hx1p hy1p hx2p hy2p
  have hxz : ((x1 : Int) : ZMod p) ≠ ((x2 : Int) : ZMod p) := by
    intro h
    exact hxne ((cast_eq_iff_of_range hx10 hx1p hx20 hx2p).mp h)
  have hsub12 : ((x2 : Int) : ZMod p) - ((x1 : Int) : ZMod p) ≠ 0 :=
    sub_ne_zero_of_ne (Ne.symm hxz)
  have hsub21 : ((x1 : Int) : ZMod p) - ((x2 : Int) : ZMod p) ≠ 0 :=
    sub_ne_zero_of_ne hxz
  have hLcast : ((lamGen c x1 y1 x2 y2 : Int) : ZMod p) =
      ((lamGen c x2 y2 x1 y1 : Int) : ZMod p) := by
    rw [lamGen_cast hp c hP x1 y1 x2 y2 hsub12, lamGen_cast hp c hP x2 y2 x1 y1 hsub21]
    rw [show ((x1 : Int) : ZMod p) - ((x2 : Int) : ZMod p) =
      -(((x2 : Int) : ZMod p) - ((x1 : Int) : ZMod p)) by ring, inv_neg]
    ring
  have r1 := lamGen_mem_range c hppos x1 y1 x2 y2
  have r2 := lamGen_mem_range c hppos x2 y2 x1 y1
  rw [hP] at r1 r2
  have hL : lamGen c x1 y1 x2 y2 = lamGen c x2 y2 x1 y1 :=
    (cast_eq_iff_of_range r1.1 r1.2 r2.1 r2.2).mp hLcast
  rw [add_eq_general c x1 y1 x2 y2 hne12, add_eq_general c x2 y2 x1 y1 hne21, ← hL]
  have hfst : (addRes c (lamGen c x1 y1 x2 y2) x1 x2 y1).1 =
      (addRes c (lamGen c x1 y1 x2 y2) x2 x1 y2).1 := by
    show posP c.P ((lamGen c x1 y1 x2 y2 * lamGen c x1 y1 x2 y2 - x1 - x2) % c.P) =
      posP c.P ((lamGen c x1 y1 x2 y2 * lamGen c x1 y1 x2 y2 - x2 - x1) % c.P)
    rw [show lamGen c x1 y1 x2 y2 * lamGen c x1 y1 x2 y2 - x2 - x1 =
      lamGen c x1 y1 x2 y2 * lamGen c x1 y1 x2 y2 - x1 - x2 by ring]
  have m1 := addRes_mem_range c hppos (lamGen c x1 y1 x2 y2) x1 x2 y1
  have m2 := addRes_mem_range c hppos (lamGen c x1 y1 x2 y2) x2 x1 y2
  rw [hP] at m1 m2
  have hsnd : (addRes c (lamGen c x1 y1 x2 y2) x1 x2 y1).2 =
      (addRes c (lamGen c x1 y1 x2 y2) x2 x1 y2).2 := by
    apply (cast_eq_iff_of_range m1.2.2.1 m1.2.2.2 m2.2.2.1 m2.2.2.2).mp
    rw [addRes_cast2 c hP, addRes_cast2 c hP, ← hfst,
      lamGen_cast hp c hP x1 y1 x2 y2 hsub12]
    field_simp
    ring
  exact Prod.ext hfst hsnd

/-- C7 counterexample: the toy points (3, 10) and (3, 13) are distinct,
both on the curve and in range, yet the two addition orders disagree,
refuting commutativity for arbitrary distinct points. -/
theorem C7_counterexample_same_x :
    ((3, 10) : Int × Int) ≠ (3, 13) ∧
      (10 * 10) % toyCurve.P = ((3 : Int) ^ 3 + toyCurve.A * 3 + toyCurve.B) % toyCurve.P ∧
      (13 * 13) % toyCurve.P = ((3 : Int) ^ 3 + toyCurve.A * 3 + toyCurve.B) % toyCurve.P ∧
      toyCurve.add 3 10 3 13 ≠ toyCurve.add 3 13 3 10 :=
  ⟨by decide, by decide, by decide, by decide⟩

/-- C7 amended witness: the toy points (3, 10) and (7, 12) commute. -/
theorem C7_add_comm_distinct_x_witness :
    toyCurve.add 3 10 7 12 = toyCurve.add 7 12 3 10 :=
  C7_add_comm_distinct_x 23 toyCurve 3 10 7 12 (by norm_num) rfl
    (by decide) (by decide) (by decide) (by decide) (by decide) (by decide) (by decide)
    (by decide) (by decide) (by decide) (by decide)

/-- Iterated addition of the base point, the reference semantics of the
spec for scalar multiplication: iterAdd n is the result of n successive
section 4.2 additions of (x, y) into the accumulator, i.e. (n + 1) times
the base point. -/
def iterAdd (c : Curve) (x y : Int) : Nat → Int × Int
  | 0 => (x, y)
  | n + 1 =>
    let r := iterAdd c x y n
    c.add r.1 r.2 x y

/-- Nondegeneracy of every addition along the iterated-addition chain. -/
def iterGoodB (c : Curve) (x y : Int) : Nat → Bool
  | 0 => true
  | n + 1 => iterGoodB c x y n && goodPairB (iterAdd c x y n) (x, y)

/-- Nondegeneracy of every point operation along the double-and-add loop:
at each iteration the conditional accumulator addition is a nondegenerate
pair and the running point has nonzero ordinate before doubling. -/
def loopGoodB (c : Curve) : Nat → Int → Int × Int → Int × Int → Bool
  | 0, dg, _, _ => decide (dg = 0)
  | fuel + 1, dg, T, C =>
    if dg = 0 then true
    else
      (if dg % 2 = 1 then goodPairB T C else true) &&
        decide (C.2 ≠ 0) &&
        loopGoodB c fuel (dg / 2)
          (if dg % 2 = 1 then c.add T.1 T.2 C.1 C.2 else T)
          (c.add C.1 C.2 C.1 C.2)

/-- A coordinate pair tracks a Mathlib curve point: the coordinates are in
range and the point is the finite point with the cast coordinates. -/
def Tracks (c : Curve) (p : ℕ) (pt : Int × Int) (Q : (Wcurve c p).Point) : Prop :=
  0 ≤ pt.1 ∧ pt.1 < c.P ∧ 0 ≤ pt.2 ∧ pt.2 < c.P ∧
    ∃ h : (Wcurve c p).Nonsingular ((pt.1 : Int) : ZMod p) ((pt.2 : Int) : ZMod p),
      Q = WeierstrassCurve.Affine.Point.some h

lemma point_some_congr {p : ℕ} {W : WeierstrassCurve.Affine (ZMod p)} {x y x' y' : ZMod p}
    (hx : x = x') (hy : y = y') (h : W.Nonsingular x y) :
    ∃ h' : W.Nonsingular x' y',
      WeierstrassCurve.Affine.Point.some h = WeierstrassCurve.Affine.Point.some h' := by
  subst hx
  subst hy
  exact ⟨h, rfl⟩

/-- Simulation step: a nondegenerate add call tracks the Mathlib group
addition of the tracked points. -/
lemma add_tracks {p : ℕ} [Fact p.Prime] (h2 : p ≠ 2) {c : Curve} (hP : c.P = (p : Int))
    {pt1 pt2 : Int × Int} {Q1 Q2 : (Wcurve c p).Point}
    (h1 : Tracks c p pt1 Q1) (htr2 : Tracks c p pt2 Q2)
    (hg : goodPairB pt1 pt2 = true) :
    Tracks c p (c.add pt1.1 pt1.2 pt2.1 pt2.2) (Q1 + Q2) := by
  have hp : p.Prime := Fact.out
  have hppos : (0 : Int) < c.P := by
    rw [hP]
    exact_mod_cast hp.pos
  obtain ⟨ha1, ha2, ha3, ha4, hn1, hQ1⟩ := h1
  obtain ⟨hb1, hb2, hb3, hb4, hn2, hQ2⟩ := htr2
  rw [goodPairB_iff] at hg
  have hR := add_mem_range c hppos pt1.1 pt1.2 pt2.1 pt2.2
  refine ⟨hR.1, hR.2.1, hR.2.2.1, hR.2.2.2, ?_⟩
  rcases hg with ⟨hpair, hynz⟩ | hxne
  · have hpt : pt2 = pt1 := hpair.symm
    subst hpt
    have hy2z : 2 * ((pt2.2 : Int) : ZMod p) ≠ 0 :=
      mul_ne_zero (two_ne_zero_zmod hp h2)
        (cast_ne_zero_of_range hp.pos hb3 (hP ▸ hb4) hynz)
    have hynegY : ((pt2.2 : Int) : ZMod p) ≠
        (Wcurve c p).negY ((pt2.1 : Int) : ZMod p) ((pt2.2 : Int) : ZMod p) := by
      rw [Wcurve_negY]
      intro hcon
      apply hy2z
      linear_combination hcon
    rw [hQ1, hQ2, WeierstrassCurve.Affine.Point.add_of_Y_ne hynegY]
    obtain ⟨hA, hB⟩ := add_spec_double hP hy2z
    obtain ⟨h', heq⟩ := point_some_congr hA.symm hB.symm
      (WeierstrassCurve.Affine.nonsingular_add hn1 hn2 (fun _ => hynegY))
    exact ⟨h', heq⟩
  · have hxz : ((pt1.1 : Int) : ZMod p) ≠ ((pt2.1 : Int) : ZMod p) := by
      intro h
      exact hxne ((cast_eq_iff_of_range ha1 (hP ▸ ha2) hb1 (hP ▸ hb2)).mp h)
    have hne : ¬(pt1.1 = pt2.1 ∧ pt1.2 = pt2.2) := fun h => hxne h.1
    rw [hQ1, hQ2, WeierstrassCurve.Affine.Point.add_of_X_ne hxz]
    obtain ⟨hA, hB⟩ := add_spec_general hP hne hxz
    obtain ⟨h', heq⟩ := point_some_congr hA.symm hB.symm
      (WeierstrassCurve.Affine.nonsingular_add hn1 hn2 (fun h => (hxz h).elim))
    exact ⟨h', heq⟩

/-- Simulation of the double-and-add loop: under nondegeneracy of every
intermediate operation the loop returns, and the result tracks the group
point Qt plus dg times Qc, the loop invariant of section 4.3. -/
lemma expLoop_tracks {p : ℕ} [Fact p.Prime] (h2 : p ≠ 2) {c : Curve} (hP : c.P = (p : Int)) :
    ∀ (fuel : Nat) (dg : Int), 0 ≤ dg → ∀ (T C : Int × Int) (Qt Qc : (Wcurve c p).Point),
      Tracks c p T Qt → Tracks c p C Qc →
      loopGoodB c fuel dg T C = true →
      ∃ R, expLoop c fuel dg T.1 T.2 C.1 C.2 = some R ∧
        Tracks c p R (Qt + dg.toNat • Qc) := by
  intro fuel
  induction fuel with
  | zero =>
    intro dg hdg T C Qt Qc hT hC hgood
    have h0 : dg = 0 := by simpa [loopGoodB] using hgood
    subst h0
    refine ⟨(T.1, T.2), rfl, ?_⟩
    rw [Prod.mk.eta]
    simp only [Int.toNat_zero, zero_nsmul, add_zero]
    exact hT
  | succ fuel ih =>
    intro dg hdg T C Qt Qc hT hC hgood
    by_cases h0 : dg = 0
    · subst h0
      refine ⟨(T.1, T.2), rfl, ?_⟩
      rw [Prod.mk.eta]
      simp only [Int.toNat_zero, zero_nsmul, add_zero]
      exact hT
    · have hstep : loopGoodB c (fuel + 1) dg T C =
        if dg = 0 then true
        else
          (if dg % 2 = 1 then goodPairB T C else true) &&
            decide (C.2 ≠ 0) &&
            loopGoodB c fuel (dg / 2)
              (if dg % 2 = 1 then c.add T.1 T.2 C.1 C.2 else T)
              (c.add C.1 C.2 C.1 C.2) := rfl
      rw [hstep, if_neg h0, Bool.and_eq_true, Bool.and_eq_true] at hgood
      obtain ⟨⟨hgT, hgC⟩, hgrec⟩ := hgood
      have hgoodCC : goodPairB C C = true := by
        rw [goodPairB_iff]
        left
        exact ⟨rfl, by simpa using hgC⟩
      have hCtr : Tracks c p (c.add C.1 C.2 C.1 C.2) (Qc + Qc) :=
        add_tracks h2 hP hC hC hgoodCC
      have hTtr : Tracks c p (if dg % 2 = 1 then c.add T.1 T.2 C.1 C.2 else T)
          (if dg % 2 = 1 then Qt + Qc else Qt) := by
        by_cases hbit : dg % 2 = 1
        · rw [if_pos hbit, if_pos hbit]
          rw [if_pos hbit] at hgT
          exact add_tracks h2 hP hT hC hgT
        · rw [if_neg hbit, if_neg hbit]
          exact hT
      obtain ⟨R, hRrun, hRtr⟩ := ih (dg / 2) (Int.ediv_nonneg hdg (by norm_num))
        _ _ _ _ hTtr hCtr hgrec
      refine ⟨R, ?_, ?_⟩
      · rw [expLoop, if_neg h0]
        show expLoop c fuel (dg / 2)
          (if dg % 2 = 1 then c.add T.1 T.2 C.1 C.2 else (T.1, T.2)).1
          (if dg % 2 = 1 then c.add T.1 T.2 C.1 C.2 else (T.1, T.2)).2
          (c.add C.1 C.2 C.1 C.2).1 (c.add C.1 C.2 C.1 C.2).2 = some R
        rw [Prod.mk.eta]
        exact hRrun
      · have harith : (if dg % 2 = 1 then Qt + Qc else Qt) + (dg / 2).toNat • (Qc + Qc) =
            Qt + dg.toNat • Qc := by
          have hsplit : dg.toNat = 2 * (dg / 2).toNat + (if dg % 2 = 1 then 1 else 0) := by
            by_cases hbit : dg % 2 = 1
            · rw [if_pos hbit]
              omega
            · rw [if_neg hbit]
              omega
          by_cases hbit : dg % 2 = 1
          · rw [if_pos hbit, hsplit, if_pos hbit]
            simp only [add_nsmul, two_mul, one_nsmul, nsmul_add] <;> abel
          · rw [if_neg hbit, hsplit, if_neg hbit]
            simp only [add_zero, add_nsmul, two_mul, nsmul_add] <;> abel
        rw [← harith]
        exact hRtr

/-- Simulation of iterated addition: under nondegeneracy of the chain, the
result of n additions tracks (n + 1) times the base point. -/
lemma iterAdd_tracks {p : ℕ} [Fact p.Prime] (h2 : p ≠ 2) {c : Curve} (hP : c.P = (p : Int))
    {x y : Int} {Q0 : (Wcurve c p).Point} (h0 : Tracks c p (x, y) Q0) :
    ∀ n : Nat, iterGoodB c x y n = true → Tracks c p (iterAdd c x y n) ((n + 1) • Q0) := by
  intro n
  induction n with
  | zero =>
    intro _
    show Tracks c p (x, y) ((0 + 1) • Q0)
    rw [zero_add, one_nsmul]
    exact h0
  | succ n ih =>
    intro hgood
    have hstep : iterGoodB c x y (n + 1) =
        (iterGoodB c x y n && goodPairB (iterAdd c x y n) (x, y)) := rfl
    rw [hstep, Bool.and_eq_true] at hgood
    obtain ⟨hg1, hg2⟩ := hgood
    have hsum := add_tracks h2 hP (ih hg1) h0 hg2
    show Tracks c p (c.add (iterAdd c x y n).1 (iterAdd c x y n).2 x y) ((n + 1 + 1) • Q0)
    rw [succ_nsmul]
    exact hsum

/-- C1. Scalar multiplication refines iterated addition: over a valid odd
prime modulus, for a nonsingular in-range base point and any degree at
least 1, when every intermediate double-and-add operation and every step
of the iterated-addition chain is nondegenerate (no point at infinity
arises), Exp returns exactly the point obtained by degree - 1 successive
section 4.2 additions of the base point, i.e. degree times the point. -/
theorem C1_exp_iterated_add (p : ℕ) (c : Curve) (x y degree : Int) (fuel : Nat)
    (hp : p.Prime) (h2 : p ≠ 2) (hP : c.P = (p : Int))
    (hx0 : 0 ≤ x) (hxp : x < c.P) (hy0 : 0 ≤ y) (hyp : y < c.P)
    (hns : (Wcurve c p).Nonsingular ((x : Int) : ZMod p) ((y : Int) : ZMod p))
    (hd : 1 ≤ degree)
    (hloop : loopGoodB c fuel (degree - 1) (x, y) (x, y) = true)
    (hiter : iterGoodB c x y (degree - 1).toNat = true) :
    c.Exp degree x y fuel = some (Except.ok (iterAdd c x y (degree - 1).toNat)) := by
  haveI : Fact p.Prime := ⟨hp⟩
  have hQ0 : Tracks c p (x, y) (WeierstrassCurve.Affine.Point.some hns) :=
    ⟨hx0, hxp, hy0, hyp, hns, rfl⟩
  obtain ⟨R, hRrun, hRtr⟩ := expLoop_tracks h2 hP fuel (degree - 1) (by omega)
    (x, y) (x, y) _ _ hQ0 hQ0 hloop
  have hiterTr := iterAdd_tracks h2 hP hQ0 (degree - 1).toNat hiter
  have hsame : WeierstrassCurve.Affine.Point.some hns +
      (degree - 1).toNat • WeierstrassCurve.Affine.Point.some hns =
      ((degree - 1).toNat + 1) • WeierstrassCurve.Affine.Point.some hns := by
    rw [succ_nsmul]
    exact add_comm _ _
  rw [hsame] at hRtr
  obtain ⟨hr1, hr2, hr3, hr4, hnsR, hQR⟩ := hRtr
  obtain ⟨hi1, hi2, hi3, hi4, hnsI, hQI⟩ := hiterTr
  have hcoords := hQR.symm.trans hQI
  injection hcoords with hcx hcy
  have hRI : R = iterAdd c x y (degree - 1).toNat := by
    refine Prod.ext ?_ ?_
    · exact (cast_eq_iff_of_range hr1 (hP ▸ hr2) hi1 (hP ▸ hi2)).mp hcx
    · exact (cast_eq_iff_of_range hr3 (hP ▸ hr4) hi3 (hP ▸ hi4)).mp hcy
  have hRrun' : expLoop c fuel (degree - 1) x y x y = some R := hRrun
  rw [Curve.Exp, if_neg (by omega : ¬ degree = 0)]
  show Option.map Except.ok (expLoop c fuel (degree - 1) x y x y) =
    some (Except.ok (iterAdd c x y (degree - 1).toNat))
  rw [hRrun', hRI]
  rfl

/-- C1 witness: on the toy curve, Exp with degree 3 returns the result of
two successive additions of the base point (3, 10), with every hypothesis
checked at the concrete input. -/
theorem C1_exp_iterated_add_witness :
    toyCurve.Exp 3 3 10 2 = some (Except.ok (iterAdd toyCurve 3 10 ((3 : Int) - 1).toNat)) :=
  C1_exp_iterated_add 23 toyCurve 3 10 3 2 (by norm_num) (by norm_num) rfl
    (by decide) (by decide) (by decide) (by decide)
    (by
      rw [WeierstrassCurve.Affine.nonsingular_iff, WeierstrassCurve.Affine.equation_iff]
      constructor <;> decide)
    (by norm_num) (by decide) (by decide)

/-- C2 witness: doubling the toy base point satisfies the formulas at a
concrete input. -/
theorem C2_add_weierstrass_witness :
    (0 ≤ (toyCurve.add 3 10 3 10).1 ∧ (toyCurve.add 3 10 3 10).1 < toyCurve.P ∧
      0 ≤ (toyCurve.add 3 10 3 10).2 ∧ (toyCurve.add 3 10 3 10).2 < toyCurve.P) ∧
    (((toyCurve.add 3 10 3 10).1 : Int) : ZMod 23) =
      specSlope 23 toyCurve 3 10 3 10 ^ 2 - ((3 : Int) : ZMod 23) - ((3 : Int) : ZMod 23) ∧
    (((toyCurve.add 3 10 3 10).2 : Int) : ZMod 23) =
      specSlope 23 toyCurve 3 10 3 10 *
        (((3 : Int) : ZMod 23) - (((toyCurve.add 3 10 3 10).1 : Int) : ZMod 23)) -
        ((10 : Int) : ZMod 23) :=
  C2_add_weierstrass 23 toyCurve 3 10 3 10 (by norm_num) rfl (by decide)

end GoGost
